import Mathlib

/-!
Shallow embedding of `src/solcipher.py`, the Solitaire/Pontifex hand
cipher: card-token parsing, deck construction, the shuffle round
(joker swaps, triple cut, count cut), key-letter derivation, and the
letter-combination transform.  Decks are `List Nat` (card codes), text
is `List Char`, and the unbounded key-letter loop is given explicit
fuel, returning `none` when the fuel runs out.
-/

namespace Solcipher

/-- Whitespace characters recognised by Python's `\s` / `str.split()`
on ASCII input. -/
def isSpaceChar (c : Char) : Bool :=
  c = ' ' || c = '\t' || c = '\n' || c = '\r' || c = '\x0b' || c = '\x0c'

/-- Rank characters, in order: the string `VALUES = 'A23456789TJQK'`. -/
def RANKS : List Char := ['A', '2', '3', '4', '5', '6', '7', '8', '9', 'T', 'J', 'Q', 'K']

/-- ASCII suit characters, in order: the string `SUITS = 'cdhs'`. -/
def SUITS_ASCII : List Char := ['c', 'd', 'h', 's']

/-- Unicode suit glyphs, in order: `SUITS_UNI`. -/
def SUITS_UNI : List Char := ['♣', '♦', '♥', '♠']

/-- Character class of the rank regex `[A23456789TJQK]` in `read_card`
(uppercase ranks only). -/
def isRankChar (c : Char) : Bool := RANKS.contains c

/-- Character class of the suit regex `[cdhsCDHS♣♦♥♠]` in `read_card`. -/
def isSuitChar (c : Char) : Bool :=
  (['c', 'd', 'h', 's', 'C', 'D', 'H', 'S', '♣', '♦', '♥', '♠'] : List Char).contains c

/-- The dictionary `REV_SUITS = _flip(SUITS) | _flip(SUITS_UNI)` as an
association list: suit character to suit index 0..3. -/
def REV_SUITS : List (Char × Nat) :=
  [('c', 0), ('d', 1), ('h', 2), ('s', 3), ('♣', 0), ('♦', 1), ('♥', 2), ('♠', 3)]

/-- Lookup in `REV_SUITS`. -/
def rev_suits (c : Char) : Option Nat :=
  (REV_SUITS.find? (fun p => p.fst = c)).map Prod.snd

/-- The dictionary `REV_VALUES = _flip(VALUES)` as an association
list: rank character to rank index 0..12. -/
def REV_VALUES : List (Char × Nat) :=
  [('A', 0), ('2', 1), ('3', 2), ('4', 3), ('5', 4), ('6', 5), ('7', 6),
   ('8', 7), ('9', 8), ('T', 9), ('J', 10), ('Q', 11), ('K', 12)]

/-- Lookup in `REV_VALUES`. -/
def rev_values (c : Char) : Option Nat :=
  (REV_VALUES.find? (fun p => p.fst = c)).map Prod.snd

/-- Python function `read_card(token)`: joker labels map to 53/54;
otherwise the first rank-regex match and the first suit-regex match
(rank uppercased, suit lowercased) give `13 * suit + rank + 1`.
Parse failure (the `ValueError`) is `none`. -/
def read_card (token : List Char) : Option Nat :=
  if token = ['A'] then some 53
  else if token = ['B'] then some 54
  else
    match token.find? isRankChar, token.find? isSuitChar with
    | some r, some s =>
      match rev_suits s.toLower, rev_values r.toUpper with
      | some si, some ri => some (13 * si + ri + 1)
      | _, _ => none
    | _, _ => none

/-- Characters kept by the `re.sub` filter in `Deck.from_input`
(everything outside `[AB2-9TJQKcdhsCDHS♣♦♥♠\s]` is deleted). -/
def allowedChar (c : Char) : Bool :=
  c = 'A' || c = 'B' || ('2' ≤ c && c ≤ '9') || c = 'T' || c = 'J' || c = 'Q' || c = 'K'
  || isSuitChar c || isSpaceChar c

/-- Split a character list into maximal whitespace-free runs, as
Python's `str.split()` with no arguments does (empty runs dropped). -/
def wordsAux : List Char → List Char → List (List Char)
  | [], acc => if acc = [] then [] else [acc.reverse]
  | c :: cs, acc =>
    if isSpaceChar c then
      if acc = [] then wordsAux cs [] else acc.reverse :: wordsAux cs []
    else wordsAux cs (c :: acc)

/-- Tokenisation performed by `Deck.from_input`: filter to the allowed
character set, then split on whitespace. -/
def tokenize (inp : List Char) : List (List Char) :=
  wordsAux (inp.filter allowedChar) []

/-- Python constructor `Deck.__init__(cards)`: accepts any list of
exactly 54 codes, raising (here `none`) only on a wrong length. -/
def deck_init (cards : List Nat) : Option (List Nat) :=
  if cards.length = 54 then some cards else none

/-- Python classmethod `Deck.create()`: the standard deck
`list(range(1, 55))`. -/
def deck_create : List Nat := List.range' 1 54

/-- The comprehension `[read_card(t) for t in tokens]`: parse every
token, propagating the first failure. -/
def parse_tokens : List (List Char) → Option (List Nat)
  | [] => some []
  | t :: ts =>
    match read_card t with
    | none => none
    | some v =>
      match parse_tokens ts with
      | none => none
      | some vs => some (v :: vs)

/-- Python classmethod `Deck.from_input(inp)`: tokenize, require 54
tokens, parse each token, require 54 distinct codes. -/
def from_input (inp : List Char) : Option (List Nat) :=
  let tokens := tokenize inp
  if tokens.length ≠ 54 then none
  else
    match parse_tokens tokens with
    | none => none
    | some vals => if vals.dedup.length ≠ 54 then none else some vals

/-- Python method `Deck.get_card(idx)`: the code at `idx`, with both
jokers clamped to 53 (`min(self.deck[idx], 53)`). -/
def get_card (d : List Nat) (idx : Nat) : Nat :=
  min (d.getD idx 0) 53

/-- Python method `Deck.cycle_shift()`: move the bottom (last) card to
the top (front). -/
def cycle_shift (d : List Nat) : List Nat :=
  match d.getLast? with
  | none => d
  | some x => x :: d.dropLast

/-- The simultaneous assignment `deck[i], deck[j] = deck[j], deck[i]`. -/
def swapIdx (d : List Nat) (i j : Nat) : List Nat :=
  (d.set i (d.getD j 0)).set j (d.getD i 0)

/-- Python method `Deck.swap_down(code)`: if the card is at the bottom,
first rotate bottom-to-top; then swap it with the next position,
index taken modulo 54. -/
def swap_down (code : Nat) (d : List Nat) : List Nat :=
  let d1 := if d.getLast? = some code then cycle_shift d else d
  let i := d1.indexOf code
  swapIdx d1 i ((i + 1) % 54)

/-- Python method `Deck.count_cut(count)`: with `x` the first `count`
cards, `y` the cards strictly between `x` and the bottom card `z`,
reassemble as `y ++ x ++ [z]`. -/
def count_cut (count : Nat) (d : List Nat) : List Nat :=
  match d.getLast? with
  | none => d
  | some z => (d.drop count).dropLast ++ d.take count ++ [z]

/-- The triple cut inside `Deck.shift_cut`: with `i1 ≤ i2` the joker
positions, reassemble as `bot ++ mid ++ top`. -/
def triple_cut (d : List Nat) : List Nat :=
  let p53 := d.indexOf 53
  let p54 := d.indexOf 54
  let i1 := min p53 p54
  let i2 := max p53 p54
  let top := d.take i1
  let mid := (d.take (i2 + 1)).drop i1
  let bot := d.drop (i2 + 1)
  bot ++ mid ++ top

/-- Python method `Deck.shift_cut()`: joker A down one, joker B down
two, triple cut, then a count cut by the bottom card clamped to 53. -/
def shift_cut (d : List Nat) : List Nat :=
  let d1 := swap_down 53 d
  let d2 := swap_down 54 (swap_down 54 d1)
  let d3 := triple_cut d2
  let bottom := d3.getLast?.getD 0
  let cnt := if bottom < 53 then bottom else 53
  count_cut cnt d3

/-- The letter `chr((card - 1) % 26 + 65)` computed by
`Deck.next_key_letter`, with Python's signed modulus. -/
def key_letter_char (card : Nat) : Char :=
  Char.ofNat (((card : Int) - 1) % 26 + 65).toNat

/-- The `while card > 52` loop of `Deck.next_key_letter`, with explicit
fuel bounding the number of iterations; the source loop itself has no
bound. -/
def next_key_loop : Nat → Nat → List Nat → Option (Nat × List Nat)
  | 0, card, d => if card > 52 then none else some (card, d)
  | Nat.succ f, card, d =>
    if card > 52 then
      let d1 := shift_cut d
      next_key_loop f (get_card d1 (get_card d1 0)) d1
    else some (card, d)

/-- Python method `Deck.next_key_letter()`: run the loop starting from
`card = 54` and convert the accepted card to a letter. -/
def next_key_letter (fuel : Nat) (d : List Nat) : Option (Char × List Nat) :=
  match next_key_loop fuel 54 d with
  | none => none
  | some (card, d1) => some (key_letter_char card, d1)

/-- A length-`n` run of `Deck.get_key_stream`: the generator yields
`next_key_letter()` values while threading the deck state. -/
def key_stream (fuel : Nat) : Nat → List Nat → Option (List Char × List Nat)
  | 0, d => some ([], d)
  | Nat.succ m, d =>
    match next_key_letter fuel d with
    | none => none
    | some (k, d1) =>
      match key_stream fuel m d1 with
      | none => none
      | some (ks, d2) => some (k :: ks, d2)

/-- Python method `Deck.add_password_letter(letter)`: one `shift_cut`,
then a count cut by the letter's alphabet position. -/
def add_password_letter (d : List Nat) (letter : Char) : List Nat :=
  count_cut (letter.toUpper.toNat - 64) (shift_cut d)

/-- Python classmethod `Deck.from_password(pw)`: start from the
standard deck and apply each passphrase character in order. -/
def from_password (pw : List Char) : List Nat :=
  pw.foldl add_password_letter deck_create

/-- Python function `combine_letters(a, b, sign)`: combine a text
letter with a keystream letter; `sign = 1` encrypts, `-1` decrypts. -/
def combine_letters (a b : Char) (sign : Int) : Char :=
  let base : Int := if a.isUpper then 65 else 97
  let p0 : Int := (a.toNat : Int) - base
  let k1 : Int := (b.toNat : Int) - 64
  let c0 := (p0 + sign * k1) % 26
  Char.ofNat (base + c0).toNat

/-- The letter test `'A' <= ch <= 'Z' or 'a' <= ch <= 'z'` in
`combine_text`. -/
def isAsciiLetter (c : Char) : Bool :=
  ('A' ≤ c && c ≤ 'Z') || ('a' ≤ c && c ≤ 'z')

/-- Python function `combine_text(text, key_gen, sign)` specialised to
the deck keystream: letters consume one key letter each, everything
else is dropped. -/
def combine_text (fuel : Nat) : List Char → Int → List Nat → Option (List Char × List Nat)
  | [], _, d => some ([], d)
  | ch :: rest, sign, d =>
    if isAsciiLetter ch then
      match next_key_letter fuel d with
      | none => none
      | some (k, d1) =>
        match combine_text fuel rest sign d1 with
        | none => none
        | some (out, d2) => some (combine_letters ch k sign :: out, d2)
    else combine_text fuel rest sign d

/-- Python method `Deck.encrypt(plaintext)`. -/
def encrypt (fuel : Nat) (d : List Nat) (text : List Char) : Option (List Char × List Nat) :=
  combine_text fuel text 1 d

/-- Python method `Deck.decrypt(ciphertext)`. -/
def decrypt (fuel : Nat) (d : List Nat) (text : List Char) : Option (List Char × List Nat) :=
  combine_text fuel text (-1) d

/-- Key-letter derivation as claim C1 words it: after each round read
the top value, then read the card at index `top - 1` (the claimed
1-based to 0-based conversion). -/
def next_key_letter_claimC1 : Nat → List Nat → Option (Char × List Nat)
  | 0, _ => none
  | Nat.succ f, d =>
    let d1 := shift_cut d
    let top := get_card d1 0
    let card := get_card d1 (top - 1)
    if card ≤ 52 then some (key_letter_char card, d1)
    else next_key_letter_claimC1 f d1

/-- Key-letter derivation as the amended claim words it: after each
round read the top value `top`, then read the card at 0-based index
`top` itself (the card reached after counting down `top` cards), and
emit its letter when it is not a joker. -/
def next_key_letter_amendedC1 : Nat → List Nat → Option (Char × List Nat)
  | 0, _ => none
  | Nat.succ f, d =>
    let d1 := shift_cut d
    let top := get_card d1 0
    let card := get_card d1 top
    if card ≤ 52 then some (key_letter_char card, d1)
    else next_key_letter_amendedC1 f d1

/-- A defective 54-card state accepted by `Deck.__init__` (which checks
only the length): out-of-range code 55 everywhere except the two
jokers.  Every value readable from it is joker-clamped to 53. -/
def defective_deck : List Nat := List.replicate 52 55 ++ [53, 54]

/-- The session construction of `main()`: build a deck from the token
text, then apply each passphrase character in order. -/
def deck_from_seed (inp : List Char) (pw : List Char) : Option (List Nat) :=
  (from_input inp).map (fun d => pw.foldl add_password_letter d)

/-- The default 54-token deck text (`default_line` in the source). -/
def default_line : List Char :=
  ("A♣ 2♣ 3♣ 4♣ 5♣ 6♣ 7♣ 8♣ 9♣ T♣ J♣ Q♣ K♣ " ++
   "A♦ 2♦ 3♦ 4♦ 5♦ 6♦ 7♦ 8♦ 9♦ T♦ J♦ Q♦ K♦ " ++
   "A♥ 2♥ 3♥ 4♥ 5♥ 6♥ 7♥ 8♥ 9♥ T♥ J♥ Q♥ K♥ " ++
   "A♠ 2♠ 3♠ 4♠ 5♠ 6♠ 7♠ 8♠ 9♠ T♠ J♠ Q♠ K♠ A B").toList

/-- One Deck operation, as enumerated by the permutation-invariant
claim: joker moves, triple cut, count cut, full rounds, passphrase
letters, and key-letter derivation. -/
inductive DeckOp where
  | jokerMoveA : DeckOp
  | jokerMoveB : DeckOp
  | tripleCut : DeckOp
  | countCut (n : Nat) : DeckOp
  | fullRound : DeckOp
  | passLetter (c : Char) : DeckOp
  | keyLetter (fuel : Nat) : DeckOp

/-- Interpretation of one Deck operation on the deck state.  Key-letter
derivation keeps the state reached when a letter is produced; when the
fuel runs out the state is left in place. -/
def applyOp (d : List Nat) : DeckOp → List Nat
  | DeckOp.jokerMoveA => swap_down 53 d
  | DeckOp.jokerMoveB => swap_down 54 d
  | DeckOp.tripleCut => triple_cut d
  | DeckOp.countCut n => count_cut n d
  | DeckOp.fullRound => shift_cut d
  | DeckOp.passLetter c => add_password_letter d c
  | DeckOp.keyLetter fuel =>
    match next_key_letter fuel d with
    | none => d
    | some (_, d1) => d1

/-- Validity of an operation's parameter: count cuts use a count in
0..53, passphrase characters are letters. -/
def opValid : DeckOp → Prop
  | DeckOp.countCut n => n ≤ 53
  | DeckOp.passLetter c => ('A' ≤ c ∧ c ≤ 'Z') ∨ ('a' ≤ c ∧ c ≤ 'z')
  | _ => True

/-- A sequence of Deck operations applied in order. -/
def applyOps (d : List Nat) (ops : List DeckOp) : List Nat :=
  ops.foldl applyOp d

/-! ### Helper lemmas: characters -/

theorem char_toNat_ofNat {n : Nat} (h : n < 55296) : (Char.ofNat n).toNat = n := by
  simp [Char.ofNat, Nat.isValidChar, h, Char.ofNatAux, Char.toNat, UInt32.toNat,
    BitVec.toNat_ofNatLt]

theorem char_le_iff {c₁ c₂ : Char} : c₁ ≤ c₂ ↔ c₁.toNat ≤ c₂.toNat := Char.le_def

theorem char_upper_toNat {c : Char} (h : 'A' ≤ c ∧ c ≤ 'Z') :
    65 ≤ c.toNat ∧ c.toNat ≤ 90 := by
  obtain ⟨h1, h2⟩ := h
  rw [char_le_iff] at h1 h2
  exact ⟨h1, h2⟩

theorem char_lower_toNat {c : Char} (h : 'a' ≤ c ∧ c ≤ 'z') :
    97 ≤ c.toNat ∧ c.toNat ≤ 122 := by
  obtain ⟨h1, h2⟩ := h
  rw [char_le_iff] at h1 h2
  exact ⟨h1, h2⟩

theorem toUpper_toNat_of_letter {c : Char}
    (h : ('A' ≤ c ∧ c ≤ 'Z') ∨ ('a' ≤ c ∧ c ≤ 'z')) :
    65 ≤ c.toUpper.toNat ∧ c.toUpper.toNat ≤ 90 := by
  rcases h with h | h
  · have hb := char_upper_toNat h
    have : c.toUpper = c := by
      unfold Char.toUpper
      rw [if_neg]
      omega
    rw [this]
    exact hb
  · have hb := char_lower_toNat h
    have : c.toUpper = Char.ofNat (c.toNat - 32) := by
      unfold Char.toUpper
      rw [if_pos]
      omega
    rw [this, char_toNat_ofNat (by omega)]
    omega

theorem isUpper_of_toNat {c : Char} (h1 : 65 ≤ c.toNat) (h2 : c.toNat ≤ 90) :
    c.isUpper = true := by
  simp [Char.isUpper]
  exact ⟨h1, h2⟩

theorem isAsciiLetter_of_upper {c : Char} (h1 : 65 ≤ c.toNat) (h2 : c.toNat ≤ 90) :
    isAsciiLetter c = true := by
  simp [isAsciiLetter, char_le_iff]
  omega

theorem key_letter_char_toNat (card : Nat) :
    65 ≤ (key_letter_char card).toNat ∧ (key_letter_char card).toNat ≤ 90 := by
  unfold key_letter_char
  have h0 : (0 : Int) ≤ ((card : Int) - 1) % 26 := Int.emod_nonneg _ (by omega)
  have h1 : ((card : Int) - 1) % 26 < 26 := Int.emod_lt_of_pos _ (by omega)
  rw [char_toNat_ofNat (by omega)]
  omega

/-! ### Helper lemmas: permutations of the deck operations -/

theorem cycle_shift_perm (d : List Nat) : (cycle_shift d).Perm d := by
  rcases List.eq_nil_or_concat d with rfl | ⟨l, a, rfl⟩
  · simp [cycle_shift]
  · simp [cycle_shift, List.getLast?_concat, List.dropLast_concat]
    exact (List.perm_append_singleton a l).symm

theorem swapIdx_succ_perm (d : List Nat) (i : Nat) (h : i + 1 < d.length) :
    (swapIdx d i (i + 1)).Perm d := by
  induction d generalizing i with
  | nil => simp at h
  | cons a t ih =>
    cases i with
    | zero =>
      cases t with
      | nil => simp at h
      | cons b t' => simpa [swapIdx] using List.Perm.swap a b t'
    | succ j =>
      have h' : j + 1 < t.length := by simpa using h
      have heq : swapIdx (a :: t) (j + 1) (j + 1 + 1) = a :: swapIdx t j (j + 1) := by
        simp [swapIdx]
      rw [heq]
      exact (ih j h').cons a

theorem count_cut_perm (d : List Nat) (n : Nat) (h : n < d.length) :
    (count_cut n d).Perm d := by
  rcases List.eq_nil_or_concat d with rfl | ⟨l, z, rfl⟩
  · simp at h
  · simp only [List.concat_eq_append] at h ⊢
    have hn : n ≤ l.length := by
      simp [List.length_append] at h
      omega
    have hd : ((l ++ [z]).drop n).dropLast = l.drop n := by
      rw [List.drop_append_of_le_length hn, List.dropLast_concat]
    have ht : (l ++ [z]).take n = l.take n := List.take_append_of_le_length hn
    have hlast : (l ++ [z]).getLast? = some z := List.getLast?_concat l
    simp only [count_cut, hlast, hd, ht]
    rw [List.perm_iff_count]
    intro a
    conv_rhs => rw [← List.take_append_drop n l]
    simp only [List.count_append]
    omega

theorem triple_cut_perm (d : List Nat) : (triple_cut d).Perm d := by
  simp only [triple_cut]
  set p53 := d.indexOf 53
  set p54 := d.indexOf 54
  set i1 := min p53 p54 with hi1
  set i2 := max p53 p54 with hi2
  have h1 : i1 ≤ i2 + 1 := le_trans min_le_max (Nat.le_succ _)
  have htt : (d.take (i2 + 1)).take i1 = d.take i1 := by
    rw [List.take_take, min_eq_left h1]
  rw [List.perm_iff_count]
  intro a
  conv_rhs => rw [← List.take_append_drop (i2 + 1) d,
    ← List.take_append_drop i1 (d.take (i2 + 1)), htt]
  simp only [List.count_append]
  omega

theorem swap_down_perm (code : Nat) (d : List Nat) (h54 : d.length = 54)
    (hmem : code ∈ d) : (swap_down code d).Perm d := by
  simp only [swap_down]
  by_cases hl : d.getLast? = some code
  · rw [if_pos hl]
    have hc : cycle_shift d = code :: d.dropLast := by simp [cycle_shift, hl]
    have hlen : (cycle_shift d).length = 54 := (cycle_shift_perm d).length_eq.trans h54
    rw [hc]
    have hidx : (code :: d.dropLast).indexOf code = 0 := by simp
    rw [hidx]
    have hlen' : (code :: d.dropLast).length = 54 := by rw [← hc]; exact hlen
    have hswap : (swapIdx (code :: d.dropLast) 0 ((0 + 1) % 54)).Perm (code :: d.dropLast) :=
      swapIdx_succ_perm _ 0 (by omega)
    exact hswap.trans (hc ▸ cycle_shift_perm d)
  · rw [if_neg hl]
    have hlt : d.indexOf code < d.length := List.indexOf_lt_length.mpr hmem
    have hi : d.indexOf code < 54 := h54 ▸ hlt
    have hne : d.indexOf code ≠ 53 := by
      intro heq
      have h2 : d.get ⟨d.indexOf code, hlt⟩ = code := List.indexOf_get hlt
      have h3 : d[d.indexOf code]? = some code := by
        rw [List.getElem?_eq_getElem hlt]
        exact congrArg some h2
      rw [heq] at h3
      have hgl : d.getLast? = d[53]? := by
        rw [List.getLast?_eq_getElem?, h54]
      exact hl (hgl.trans h3)
    have hmod : (d.indexOf code + 1) % 54 = d.indexOf code + 1 := Nat.mod_eq_of_lt (by omega)
    rw [hmod]
    exact swapIdx_succ_perm d _ (by omega)

theorem shift_cut_perm (d : List Nat) (h54 : d.length = 54) (h53 : 53 ∈ d)
    (hj : 54 ∈ d) : (shift_cut d).Perm d := by
  simp only [shift_cut]
  have p1 : (swap_down 53 d).Perm d := swap_down_perm 53 d h54 h53
  have p2 : (swap_down 54 (swap_down 53 d)).Perm (swap_down 53 d) :=
    swap_down_perm 54 _ (p1.length_eq.trans h54) (p1.mem_iff.mpr hj)
  have p3 : (swap_down 54 (swap_down 54 (swap_down 53 d))).Perm
      (swap_down 54 (swap_down 53 d)) :=
    swap_down_perm 54 _ (p2.length_eq.trans (p1.length_eq.trans h54))
      (p2.mem_iff.mpr (p1.mem_iff.mpr hj))
  have p123 := (p3.trans p2).trans p1
  have p4 : (triple_cut (swap_down 54 (swap_down 54 (swap_down 53 d)))).Perm d :=
    (triple_cut_perm _).trans p123
  have hcnt :
      (if (triple_cut (swap_down 54 (swap_down 54 (swap_down 53 d)))).getLast?.getD 0 < 53
        then (triple_cut (swap_down 54 (swap_down 54 (swap_down 53 d)))).getLast?.getD 0
        else 53) < (triple_cut (swap_down 54 (swap_down 54 (swap_down 53 d)))).length := by
    rw [p4.length_eq.trans h54]
    split <;> omega
  exact (count_cut_perm _ _ hcnt).trans p4

theorem next_key_loop_perm (fuel : Nat) : ∀ (card : Nat) (d : List Nat) (c : Nat)
    (d' : List Nat), d.length = 54 → 53 ∈ d → 54 ∈ d →
    next_key_loop fuel card d = some (c, d') → d'.Perm d := by
  induction fuel with
  | zero =>
    intro card d c d' _ _ _ h
    by_cases hc : card > 52 <;> simp [next_key_loop, hc] at h
    rw [← h.2]
  | succ f ih =>
    intro card d c d' hlen h53 h54 h
    by_cases hc : card > 52
    · simp only [next_key_loop, if_pos hc] at h
      have hp : (shift_cut d).Perm d := shift_cut_perm d hlen h53 h54
      exact (ih _ _ c d' (hp.length_eq.trans hlen) (hp.mem_iff.mpr h53)
        (hp.mem_iff.mpr h54) h).trans hp
    · simp only [next_key_loop, if_neg hc, Option.some.injEq, Prod.mk.injEq] at h
      rw [← h.2]

theorem next_key_letter_perm (fuel : Nat) (d : List Nat) (k : Char) (d' : List Nat)
    (hlen : d.length = 54) (h53 : 53 ∈ d) (h54 : 54 ∈ d)
    (h : next_key_letter fuel d = some (k, d')) : d'.Perm d := by
  unfold next_key_letter at h
  cases hnl : next_key_loop fuel 54 d with
  | none => rw [hnl] at h; simp at h
  | some p =>
    obtain ⟨c, d1⟩ := p
    rw [hnl] at h
    simp only [Option.some.injEq, Prod.mk.injEq] at h
    rw [← h.2]
    exact next_key_loop_perm fuel 54 d c d1 hlen h53 h54 hnl

theorem count_cut_concat (l : List Nat) (z : Nat) (n : Nat) (hn : n ≤ l.length) :
    count_cut n (l ++ [z]) = l.drop n ++ l.take n ++ [z] := by
  have hd : ((l ++ [z]).drop n).dropLast = l.drop n := by
    rw [List.drop_append_of_le_length hn, List.dropLast_concat]
  have ht : (l ++ [z]).take n = l.take n := List.take_append_of_le_length hn
  have hlast : (l ++ [z]).getLast? = some z := List.getLast?_concat l
  simp only [count_cut, hlast, hd, ht]

/-! ### Claim theorems -/

/-- C4 (confirmed).  Count-cut frame property: for every 54-card deck
state and every n in 0..53, count_cut(n) preserves the deck length of
54 and leaves the final (bottom) card unchanged in the last position;
in particular count_cut(0) leaves the whole deck unchanged. -/
theorem count_cut_frame (d : List Nat) (h54 : d.length = 54) (n : Nat) (hn : n ≤ 53) :
    (count_cut n d).length = 54 ∧ (count_cut n d).getLast? = d.getLast? ∧
    count_cut 0 d = d := by
  rcases List.eq_nil_or_concat d with rfl | ⟨l, z, rfl⟩
  · simp at h54
  · simp only [List.concat_eq_append] at h54 ⊢
    have hlen : l.length = 53 := by
      simp [List.length_append] at h54
      omega
    have hn' : n ≤ l.length := by omega
    rw [count_cut_concat l z n hn', count_cut_concat l z 0 (by omega)]
    refine ⟨?_, ?_, ?_⟩
    · simp [List.length_append, List.length_drop, List.length_take]
      omega
    · rw [List.getLast?_concat, List.getLast?_concat]
    · simp

/-- Witness for C4 at the standard deck, with the cut sizes 53 and 0
named by the spec. -/
theorem count_cut_frame_witness :
    ((count_cut 53 deck_create).length = 54 ∧
      (count_cut 53 deck_create).getLast? = deck_create.getLast? ∧
      count_cut 0 deck_create = deck_create) ∧
    ((count_cut 0 deck_create).length = 54 ∧
      (count_cut 0 deck_create).getLast? = deck_create.getLast? ∧
      count_cut 0 deck_create = deck_create) :=
  ⟨count_cut_frame deck_create (by decide) 53 (by decide),
   count_cut_frame deck_create (by decide) 0 (by decide)⟩

/-- C3 (confirmed).  Permutation invariant: starting from a deck state
that is a permutation of 1..54, after any sequence of the Deck
operations (joker moves, triple cut, count cut, full rounds,
passphrase letters, key-letter derivation) the 54-element state is
still a permutation of 1..54, with no duplicates and no omissions. -/
theorem deck_ops_preserve_permutation (ops : List DeckOp) : ∀ d : List Nat,
    d.Perm (List.range' 1 54) → (∀ op ∈ ops, opValid op) →
    (applyOps d ops).Perm (List.range' 1 54) := by
  induction ops with
  | nil => intro d hd _; simpa [applyOps] using hd
  | cons op rest ih =>
    intro d hd hv
    have hlen : d.length = 54 := hd.length_eq.trans (by simp)
    have h53 : 53 ∈ d := hd.mem_iff.mpr (by decide)
    have h54 : 54 ∈ d := hd.mem_iff.mpr (by decide)
    have hstep : (applyOp d op).Perm d := by
      cases op with
      | jokerMoveA => exact swap_down_perm 53 d hlen h53
      | jokerMoveB => exact swap_down_perm 54 d hlen h54
      | tripleCut => exact triple_cut_perm d
      | countCut n =>
        have hv' : n ≤ 53 := hv (DeckOp.countCut n) (by simp)
        exact count_cut_perm d n (by omega)
      | fullRound => exact shift_cut_perm d hlen h53 h54
      | passLetter c =>
        have hvc := hv (DeckOp.passLetter c) (by simp)
        have hp := shift_cut_perm d hlen h53 h54
        have hb := toUpper_toNat_of_letter hvc
        have hlt : c.toUpper.toNat - 64 < (shift_cut d).length := by
          rw [hp.length_eq, hlen]
          omega
        exact (count_cut_perm _ _ hlt).trans hp
      | keyLetter fuel =>
        cases hnl : next_key_letter fuel d with
        | none => simp [applyOp, hnl]
        | some p =>
          obtain ⟨k, d1⟩ := p
          simp only [applyOp, hnl]
          exact next_key_letter_perm fuel d k d1 hlen h53 h54 hnl
    have hfold : applyOps d (op :: rest) = applyOps (applyOp d op) rest := rfl
    rw [hfold]
    exact ih (applyOp d op) (hstep.trans hd) (fun o ho => hv o (List.mem_cons_of_mem _ ho))

/-- Witness for C3: a concrete mixed sequence of valid operations on
the standard deck. -/
theorem deck_ops_preserve_permutation_witness :
    (applyOps deck_create
      [DeckOp.fullRound, DeckOp.countCut 5, DeckOp.passLetter 'Q',
       DeckOp.keyLetter 3, DeckOp.jokerMoveA, DeckOp.jokerMoveB,
       DeckOp.tripleCut, DeckOp.countCut 0, DeckOp.passLetter 'z']).Perm
      (List.range' 1 54) := by
  apply deck_ops_preserve_permutation
  · exact List.Perm.refl _
  · intro op hop
    fin_cases hop <;> simp only [opValid] <;> decide

/-- The codes of the defective deck are all joker-clamped: every entry
is at least 53. -/
theorem defective_deck_ge (x : Nat) (hx : x ∈ defective_deck) : 53 ≤ x := by
  have h : ∀ y ∈ defective_deck, 53 ≤ y := by decide
  exact h x hx

theorem next_key_loop_defective (fuel : Nat) : ∀ (card : Nat) (d : List Nat),
    d.Perm defective_deck → 52 < card → next_key_loop fuel card d = none := by
  induction fuel with
  | zero => intro card d _ hc; simp [next_key_loop, hc]
  | succ f ih =>
    intro card d hd hc
    simp only [next_key_loop, if_pos hc]
    have hlen : d.length = 54 := hd.length_eq.trans (by decide)
    have h53 : 53 ∈ d := hd.mem_iff.mpr (by decide)
    have h54 : 54 ∈ d := hd.mem_iff.mpr (by decide)
    have hp : (shift_cut d).Perm d := shift_cut_perm d hlen h53 h54
    have hlen1 : (shift_cut d).length = 54 := hp.length_eq.trans hlen
    have hall : ∀ x ∈ shift_cut d, 53 ≤ x := fun x hx =>
      defective_deck_ge x ((hp.trans hd).mem_iff.mp hx)
    have h0lt : 0 < (shift_cut d).length := by omega
    have h53lt : 53 < (shift_cut d).length := by omega
    have htop : get_card (shift_cut d) 0 = 53 := by
      have hm : (shift_cut d).getD 0 0 ∈ shift_cut d := by
        rw [List.getD_eq_getElem _ 0 h0lt]
        exact List.getElem_mem h0lt
      have hge := hall _ hm
      unfold get_card
      omega
    have hcard : get_card (shift_cut d) 53 = 53 := by
      have hm : (shift_cut d).getD 53 0 ∈ shift_cut d := by
        rw [List.getD_eq_getElem _ 0 h53lt]
        exact List.getElem_mem h53lt
      have hge := hall _ hm
      unfold get_card
      omega
    rw [htop, hcard]
    exact ih 53 (shift_cut d) (hp.trans hd) (by omega)

/-- C7 (code bug).  The claim says the joker-skip loop carries a
defensive iteration cap so it can never run unboundedly even on a
defective deck state.  The source loop `while card > 52` has no cap:
on the defective 54-card state accepted by the constructor whose
non-joker codes are all 55, every readable value clamps to 53, so no
fuel bound ever suffices — the Python loop runs forever. -/
theorem next_key_letter_defective_unbounded (fuel : Nat) :
    next_key_letter fuel defective_deck = none := by
  unfold next_key_letter
  rw [next_key_loop_defective fuel 54 defective_deck (List.Perm.refl _) (by omega)]

theorem next_key_loop_done (fuel card : Nat) (d : List Nat) (h : ¬card > 52) :
    next_key_loop fuel card d = some (card, d) := by
  cases fuel <;> simp [next_key_loop, h]

theorem next_key_loop_gt_congr (fuel c₁ c₂ : Nat) (d : List Nat) (h₁ : c₁ > 52)
    (h₂ : c₂ > 52) : next_key_loop fuel c₁ d = next_key_loop fuel c₂ d := by
  cases fuel <;> simp [next_key_loop, h₁, h₂]

/-- C1 (corrected).  The amended key-letter derivation: after each
round, top = value_at(0) joker-clamped, and the output candidate is
card = value_at(top) — the value at 0-based index top itself, the card
reached after counting down top cards — not value_at(top - 1).  The
source loop refines this repeat-round formulation exactly. -/
theorem next_key_letter_eq_amendedC1 : ∀ (fuel : Nat) (d : List Nat),
    next_key_letter fuel d = next_key_letter_amendedC1 fuel d := by
  intro fuel
  induction fuel with
  | zero =>
    intro d
    simp [next_key_letter, next_key_loop, next_key_letter_amendedC1]
  | succ f ih =>
    intro d
    by_cases hc : get_card (shift_cut d) (get_card (shift_cut d) 0) ≤ 52
    · have h1 : next_key_loop (f + 1) 54 d =
          some (get_card (shift_cut d) (get_card (shift_cut d) 0), shift_cut d) := by
        simp only [next_key_loop, if_pos (show (54 : Nat) > 52 by omega)]
        exact next_key_loop_done f _ _ (by omega)
      simp only [next_key_letter, h1, next_key_letter_amendedC1]
      rw [if_pos hc]
    · have h1 : next_key_loop (f + 1) 54 d = next_key_loop f 54 (shift_cut d) := by
        simp only [next_key_loop, if_pos (show (54 : Nat) > 52 by omega)]
        exact next_key_loop_gt_congr f _ 54 _ (by omega) (by omega)
      simp only [next_key_letter, h1, next_key_letter_amendedC1]
      rw [if_neg hc]
      exact ih (shift_cut d)

/-- Counterexample to C1 as stated: on the standard deck the code
derives the key letter D (reading value_at(top)), while the claimed
rule card = value_at(top - 1) would derive C instead. -/
theorem next_key_letter_claimC1_counterexample :
    (next_key_letter 10 deck_create).map Prod.fst = some 'D' ∧
    (next_key_letter_claimC1 10 deck_create).map Prod.fst = some 'C' ∧
    ('C' : Char) ≠ 'D' := by
  refine ⟨by decide, by decide, by decide⟩

/-! ### Letter combination arithmetic -/

theorem combine_letters_upper (a k : Char) (s : Int) (ha : 65 ≤ a.toNat)
    (ha2 : a.toNat ≤ 90) :
    combine_letters a k s =
      Char.ofNat (65 + ((a.toNat : Int) - 65 + s * ((k.toNat : Int) - 64)) % 26).toNat := by
  simp only [combine_letters]
  rw [if_pos (isUpper_of_toNat ha ha2)]

theorem combine_letters_upper_toNat (a k : Char) (s : Int) (ha : 65 ≤ a.toNat)
    (ha2 : a.toNat ≤ 90) :
    65 ≤ (combine_letters a k s).toNat ∧ (combine_letters a k s).toNat ≤ 90 := by
  rw [combine_letters_upper a k s ha ha2]
  have h0 : (0 : Int) ≤ ((a.toNat : Int) - 65 + s * ((k.toNat : Int) - 64)) % 26 :=
    Int.emod_nonneg _ (by omega)
  have h1 : ((a.toNat : Int) - 65 + s * ((k.toNat : Int) - 64)) % 26 < 26 :=
    Int.emod_lt_of_pos _ (by omega)
  rw [char_toNat_ofNat (by omega)]
  omega

theorem combine_letters_roundtrip (a k : Char) (ha : 65 ≤ a.toNat) (ha2 : a.toNat ≤ 90) :
    combine_letters (combine_letters a k 1) k (-1) = a := by
  have e1 := combine_letters_upper a k 1 ha ha2
  have hb := combine_letters_upper_toNat a k 1 ha ha2
  rw [combine_letters_upper _ k (-1) hb.1 hb.2]
  have h0 : (0 : Int) ≤ ((a.toNat : Int) - 65 + 1 * ((k.toNat : Int) - 64)) % 26 :=
    Int.emod_nonneg _ (by omega)
  have h1 : ((a.toNat : Int) - 65 + 1 * ((k.toNat : Int) - 64)) % 26 < 26 :=
    Int.emod_lt_of_pos _ (by omega)
  have het : ((combine_letters a k 1).toNat : Int) =
      65 + ((a.toNat : Int) - 65 + 1 * ((k.toNat : Int) - 64)) % 26 := by
    rw [e1, char_toNat_ofNat (by omega)]
    omega
  have hV : (65 + (((combine_letters a k 1).toNat : Int) - 65 +
      (-1) * ((k.toNat : Int) - 64)) % 26).toNat = a.toNat := by
    rw [het]
    omega
  rw [hV, Char.ofNat_toNat]

theorem next_key_letter_k_range (fuel : Nat) (d : List Nat) (k : Char) (d' : List Nat)
    (h : next_key_letter fuel d = some (k, d')) : 65 ≤ k.toNat ∧ k.toNat ≤ 90 := by
  unfold next_key_letter at h
  cases hnl : next_key_loop fuel 54 d with
  | none => rw [hnl] at h; simp at h
  | some p =>
    obtain ⟨c, d1⟩ := p
    rw [hnl] at h
    simp only [Option.some.injEq, Prod.mk.injEq] at h
    rw [← h.1]
    exact key_letter_char_toNat c

/-- C2 (confirmed).  Round-trip: for every valid 54-card deck seed and
every letters-only uppercase text T, decrypting the encryption of T,
with encryption and decryption each starting from an independent clone
of the identical initial deck state, yields T exactly (whenever the
fuel suffices for the encryption, the same fuel suffices for the
decryption, since both sides walk the identical deck trajectory). -/
theorem encrypt_then_decrypt (T : List Char) : ∀ (fuel : Nat) (d : List Nat),
    d.Perm (List.range' 1 54) → (∀ c ∈ T, 'A' ≤ c ∧ c ≤ 'Z') →
    ∀ (ct : List Char) (d' : List Nat), encrypt fuel d T = some (ct, d') →
    decrypt fuel d ct = some (T, d') := by
  induction T with
  | nil =>
    intro fuel d _ _ ct d' h
    simp only [encrypt, combine_text, Option.some.injEq, Prod.mk.injEq] at h
    rw [← h.1, ← h.2]
    simp [decrypt, combine_text]
  | cons a rest ih =>
    intro fuel d hd hT ct d' h
    have ha := char_upper_toNat (hT a (List.mem_cons_self a rest))
    have haL : isAsciiLetter a = true := isAsciiLetter_of_upper ha.1 ha.2
    simp only [encrypt, combine_text, haL, if_true] at h
    cases hnl : next_key_letter fuel d with
    | none => rw [hnl] at h; simp at h
    | some p =>
      obtain ⟨k, d1⟩ := p
      rw [hnl] at h
      dsimp only at h
      cases hct : combine_text fuel rest 1 d1 with
      | none => rw [hct] at h; simp at h
      | some q =>
        obtain ⟨out, d2⟩ := q
        rw [hct] at h
        simp only [Option.some.injEq, Prod.mk.injEq] at h
        obtain ⟨hct_eq, hd'⟩ := h
        have he := combine_letters_upper_toNat a k 1 ha.1 ha.2
        have heL : isAsciiLetter (combine_letters a k 1) = true :=
          isAsciiLetter_of_upper he.1 he.2
        have hlen : d.length = 54 := hd.length_eq.trans (by simp)
        have h53 : 53 ∈ d := hd.mem_iff.mpr (by decide)
        have h54 : 54 ∈ d := hd.mem_iff.mpr (by decide)
        have hp1 : d1.Perm d := next_key_letter_perm fuel d k d1 hlen h53 h54 hnl
        have hdec := ih fuel d1 (hp1.trans hd)
          (fun c hc => hT c (List.mem_cons_of_mem _ hc)) out d2 hct
        simp only [decrypt] at hdec
        rw [← hct_eq, ← hd']
        simp only [decrypt, combine_text, heL, if_true, hnl, hdec,
          combine_letters_roundtrip a k ha.1 ha.2]

/-- Witness for C2: the two-letter text AB encrypted and decrypted on
clones of the standard deck. -/
theorem encrypt_then_decrypt_witness :
    ∃ (ct : List Char) (d' : List Nat),
      encrypt 10 deck_create ['A', 'B'] = some (ct, d') ∧
      decrypt 10 deck_create ct = some (['A', 'B'], d') := by
  cases hE : encrypt 10 deck_create ['A', 'B'] with
  | none => exact absurd hE (by decide)
  | some p =>
    obtain ⟨ct0, d0⟩ := p
    exact ⟨ct0, d0, rfl,
      encrypt_then_decrypt ['A', 'B'] 10 deck_create (List.Perm.refl _)
        (by decide) ct0 d0 hE⟩

/-- C8 (corrected).  Encrypting the plaintext letter A with key letter
k yields the cyclic successor of k — B for key A, ..., A for key Z —
not k itself: the code mixes a 0-based plaintext value with a 1-based
key value, exactly as the classical Solitaire combination does.  So an
all-A plaintext encrypts to the keystream shifted forward one letter,
not to the keystream. -/
theorem encrypt_A_gives_successor (k : Char) (hk : 65 ≤ k.toNat) (hk2 : k.toNat ≤ 90) :
    combine_letters 'A' k 1 = if k = 'Z' then 'A' else Char.ofNat (k.toNat + 1) := by
  have hA : (('A'.toNat : Int)) = 65 := by decide
  rw [combine_letters_upper 'A' k 1 (by decide) (by decide)]
  by_cases hz : k = 'Z'
  · subst hz
    decide
  · rw [if_neg hz]
    have hk90 : k.toNat ≠ 90 := by
      intro h90
      apply hz
      have hkk := Char.ofNat_toNat k
      rw [h90] at hkk
      exact hkk.symm.trans (by decide)
    congr 1
    rw [hA]
    omega

/-- Witness for C8 (amended) at key letter D: A + D = E. -/
theorem encrypt_A_gives_successor_witness :
    combine_letters 'A' 'D' 1 = if 'D' = 'Z' then 'A' else Char.ofNat ('D'.toNat + 1) :=
  encrypt_A_gives_successor 'D' (by decide) (by decide)

/-- Counterexample to C8 as stated: encrypting A with key letter A
yields B, not the key letter itself; on the standard deck the first
five keystream letters are DWJXH while the all-A ciphertext is EXKYI. -/
theorem encrypt_A_counterexample :
    combine_letters 'A' 'A' 1 = 'B' ∧ ('B' : Char) ≠ 'A' ∧
    (key_stream 10 5 deck_create).map Prod.fst = some ['D', 'W', 'J', 'X', 'H'] ∧
    (encrypt 10 deck_create ['A', 'A', 'A', 'A', 'A']).map Prod.fst =
      some ['E', 'X', 'K', 'Y', 'I'] := by
  refine ⟨by decide, by decide, by decide, by decide⟩

/-! ### Token parsing -/

theorem suit_lookup (s : Char) (h : isSuitChar s = true) :
    ∃ si, rev_suits s.toLower = some si ∧ si ≤ 3 := by
  have hmem : s ∈ (['c', 'd', 'h', 's', 'C', 'D', 'H', 'S', '♣', '♦', '♥', '♠'] : List Char) := by
    simpa [isSuitChar] using h
  fin_cases hmem <;>
    first
      | exact ⟨0, by decide⟩
      | exact ⟨1, by decide⟩
      | exact ⟨2, by decide⟩
      | exact ⟨3, by decide⟩

theorem rank_lookup (r : Char) (h : isRankChar r = true) :
    ∃ ri, rev_values r.toUpper = some ri ∧ ri ≤ 12 := by
  have hmem : r ∈ RANKS := by
    simpa [isRankChar] using h
  fin_cases hmem <;>
    first
      | exact ⟨0, by decide⟩
      | exact ⟨1, by decide⟩
      | exact ⟨2, by decide⟩
      | exact ⟨3, by decide⟩
      | exact ⟨4, by decide⟩
      | exact ⟨5, by decide⟩
      | exact ⟨6, by decide⟩
      | exact ⟨7, by decide⟩
      | exact ⟨8, by decide⟩
      | exact ⟨9, by decide⟩
      | exact ⟨10, by decide⟩
      | exact ⟨11, by decide⟩
      | exact ⟨12, by decide⟩

/-- C5 (corrected).  For every non-joker token, parsing succeeds
exactly when the token contains a rank character from {A,2-9,T,J,Q,K}
matched case-sensitively (uppercase ranks only) together with a suit
character from the case-insensitive ASCII set {c,d,h,s} or the 4-glyph
Unicode suit set; the value is 13·suit_index + rank_index + 1 computed
from the first such characters.  A lowercase rank never matches. -/
theorem read_card_characterization (t : List Char) (hA : t ≠ ['A']) (hB : t ≠ ['B']) :
    ((read_card t).isSome ↔ (∃ c ∈ t, isRankChar c) ∧ (∃ c ∈ t, isSuitChar c)) ∧
    (∀ r s, t.find? isRankChar = some r → t.find? isSuitChar = some s →
      ∃ si ri, rev_suits s.toLower = some si ∧ rev_values r.toUpper = some ri ∧
        si ≤ 3 ∧ ri ≤ 12 ∧ read_card t = some (13 * si + ri + 1)) := by
  have hrc : read_card t =
      (match t.find? isRankChar, t.find? isSuitChar with
       | some r, some s =>
         (match rev_suits s.toLower, rev_values r.toUpper with
          | some si, some ri => some (13 * si + ri + 1)
          | _, _ => none)
       | _, _ => none) := by
    unfold read_card
    rw [if_neg hA, if_neg hB]
  constructor
  · constructor
    · intro h
      rw [hrc] at h
      cases hr : t.find? isRankChar with
      | none => rw [hr] at h; simp at h
      | some r =>
        cases hs : t.find? isSuitChar with
        | none => rw [hr, hs] at h; simp at h
        | some s =>
          exact ⟨⟨r, List.mem_of_find?_eq_some hr, List.find?_some hr⟩,
            ⟨s, List.mem_of_find?_eq_some hs, List.find?_some hs⟩⟩
    · rintro ⟨⟨r, hrmem, hrP⟩, ⟨s, hsmem, hsP⟩⟩
      have hrS : (t.find? isRankChar).isSome := List.find?_isSome.mpr ⟨r, hrmem, hrP⟩
      have hsS : (t.find? isSuitChar).isSome := List.find?_isSome.mpr ⟨s, hsmem, hsP⟩
      obtain ⟨r0, hr0⟩ := Option.isSome_iff_exists.mp hrS
      obtain ⟨s0, hs0⟩ := Option.isSome_iff_exists.mp hsS
      obtain ⟨si, hsi, _⟩ := suit_lookup s0 (List.find?_some hs0)
      obtain ⟨ri, hri, _⟩ := rank_lookup r0 (List.find?_some hr0)
      rw [hrc, hr0, hs0]
      dsimp only
      rw [hsi, hri]
      rfl
  · intro r s hr hs
    obtain ⟨si, hsi, hsi3⟩ := suit_lookup s (List.find?_some hs)
    obtain ⟨ri, hri, hri12⟩ := rank_lookup r (List.find?_some hr)
    refine ⟨si, ri, hsi, hri, hsi3, hri12, ?_⟩
    rw [hrc, hr, hs]
    dsimp only
    rw [hsi, hri]

/-- Witness for C5 (amended) at the token Tc: rank T, suit c, card
code 10 of clubs. -/
theorem read_card_characterization_witness :
    (read_card ['T', 'c']).isSome ∧ read_card ['T', 'c'] = some 10 := by
  have h := read_card_characterization ['T', 'c'] (by decide) (by decide)
  constructor
  · exact h.1.mpr ⟨⟨'T', by decide, by decide⟩, ⟨'c', by decide, by decide⟩⟩
  · obtain ⟨si, ri, hsi, hri, _, _, hv⟩ := h.2 'T' 'c' (by decide) (by decide)
    have hsi0 : si = 0 := by
      have : rev_suits 'c' = some 0 := by decide
      rw [show Char.toLower 'c' = 'c' from by decide] at hsi
      rw [this] at hsi
      exact (Option.some.inj hsi).symm
    have hri9 : ri = 9 := by
      have : rev_values 'T' = some 9 := by decide
      rw [show Char.toUpper 'T' = 'T' from by decide] at hri
      rw [this] at hri
      exact (Option.some.inj hri).symm
    rw [hv, hsi0, hri9]

/-- Counterexample to C5 as stated: the lowercase-rank token ac fails
to parse, while Ac and AC both parse to card code 1 — rank matching is
case-sensitive, only the suit is case-insensitive. -/
theorem read_card_case_counterexample :
    read_card ['a', 'c'] = none ∧ read_card ['A', 'c'] = some 1 ∧
    read_card ['A', 'C'] = some 1 := by
  refine ⟨by decide, by decide, by decide⟩

/-! ### Deck construction -/

theorem rev_suits_le (c : Char) (si : Nat) (h : rev_suits c = some si) : si ≤ 3 := by
  unfold rev_suits at h
  cases hf : REV_SUITS.find? (fun p => p.fst = c) with
  | none => rw [hf] at h; simp at h
  | some p =>
    rw [hf] at h
    simp at h
    have hm := List.mem_of_find?_eq_some hf
    have hall : ∀ q ∈ REV_SUITS, q.snd ≤ 3 := by decide
    rw [← h]
    exact hall p hm

theorem rev_values_le (c : Char) (ri : Nat) (h : rev_values c = some ri) : ri ≤ 12 := by
  unfold rev_values at h
  cases hf : REV_VALUES.find? (fun p => p.fst = c) with
  | none => rw [hf] at h; simp at h
  | some p =>
    rw [hf] at h
    simp at h
    have hm := List.mem_of_find?_eq_some hf
    have hall : ∀ q ∈ REV_VALUES, q.snd ≤ 12 := by decide
    rw [← h]
    exact hall p hm

theorem read_card_range (t : List Char) (v : Nat) (h : read_card t = some v) :
    1 ≤ v ∧ v ≤ 54 := by
  unfold read_card at h
  split_ifs at h with h1 h2
  · simp at h
    omega
  · simp at h
    omega
  · cases hr : t.find? isRankChar with
    | none => rw [hr] at h; simp at h
    | some r =>
      cases hs : t.find? isSuitChar with
      | none => rw [hr, hs] at h; simp at h
      | some s =>
        rw [hr, hs] at h
        dsimp only at h
        cases hsi : rev_suits s.toLower with
        | none => rw [hsi] at h; simp at h
        | some si =>
          cases hri : rev_values r.toUpper with
          | none => rw [hsi, hri] at h; simp at h
          | some ri =>
            rw [hsi, hri] at h
            simp at h
            have := rev_suits_le _ _ hsi
            have := rev_values_le _ _ hri
            omega

theorem parse_tokens_length : ∀ (ts : List (List Char)) (vs : List Nat),
    parse_tokens ts = some vs → vs.length = ts.length := by
  intro ts
  induction ts with
  | nil => intro vs h; simp [parse_tokens] at h; simp [h]
  | cons t ts ih =>
    intro vs h
    unfold parse_tokens at h
    cases hr : read_card t with
    | none => rw [hr] at h; simp at h
    | some v =>
      rw [hr] at h
      cases hp : parse_tokens ts with
      | none => rw [hp] at h; simp at h
      | some vs0 =>
        rw [hp] at h
        simp at h
        rw [← h]
        simp [ih vs0 hp]

theorem parse_tokens_range : ∀ (ts : List (List Char)) (vs : List Nat),
    parse_tokens ts = some vs → ∀ v ∈ vs, 1 ≤ v ∧ v ≤ 54 := by
  intro ts
  induction ts with
  | nil => intro vs h; simp [parse_tokens] at h; simp [h]
  | cons t ts ih =>
    intro vs h
    unfold parse_tokens at h
    cases hr : read_card t with
    | none => rw [hr] at h; simp at h
    | some v =>
      rw [hr] at h
      cases hp : parse_tokens ts with
      | none => rw [hp] at h; simp at h
      | some vs0 =>
        rw [hp] at h
        simp at h
        rw [← h]
        intro x hx
        rcases List.mem_cons.mp hx with rfl | hx0
        · exact read_card_range t x hr
        · exact ih vs0 hp x hx0

theorem parse_tokens_none_iff : ∀ (ts : List (List Char)),
    parse_tokens ts = none ↔ ∃ t ∈ ts, read_card t = none := by
  intro ts
  induction ts with
  | nil => simp [parse_tokens]
  | cons t ts ih =>
    unfold parse_tokens
    cases hr : read_card t with
    | none => simp [hr]
    | some v =>
      cases hp : parse_tokens ts with
      | none =>
        simp only [hp]
        constructor
        · intro _
          obtain ⟨t0, ht0, h0⟩ := ih.mp hp
          exact ⟨t0, List.mem_cons_of_mem _ ht0, h0⟩
        · intro _; trivial
      | some vs0 =>
        simp only [hp]
        constructor
        · intro h; simp at h
        · rintro ⟨t0, ht0, h0⟩
          rcases List.mem_cons.mp ht0 with rfl | ht0'
          · rw [hr] at h0; simp at h0
          · have : parse_tokens ts = none := ih.mpr ⟨t0, ht0', h0⟩
            rw [hp] at this
            simp at this

/-- On success, `from_input` returns exactly the fully parsed token
list: 54 tokens, all parsed, 54 distinct codes. -/
theorem from_input_some_parts (inp : List Char) (d : List Nat)
    (hd : from_input inp = some d) : parse_tokens (tokenize inp) = some d ∧
    (tokenize inp).length = 54 ∧ d.dedup.length = 54 := by
  by_cases hL : (tokenize inp).length ≠ 54
  · simp only [from_input, if_pos hL] at hd
    exact absurd hd (by simp)
  · have hL' : (tokenize inp).length = 54 := by omega
    cases hp : parse_tokens (tokenize inp) with
    | none =>
      simp only [from_input, if_neg hL, hp] at hd
      exact absurd hd (by simp)
    | some vals =>
      by_cases hdup : vals.dedup.length ≠ 54
      · simp only [from_input, if_neg hL, hp, if_pos hdup] at hd
        exact absurd hd (by simp)
      · simp only [from_input, if_neg hL, hp, if_neg hdup,
          Option.some.injEq] at hd
        subst hd
        exact ⟨rfl, hL', by omega⟩

/-- C6 (confirmed).  Deck construction from tokens fails — produces no
deck — exactly when the token count differs from 54, some token parses
to no valid card, or the parsed codes contain a duplicate (fewer than
54 distinct values); and on success the deck is exactly the full
parsed code list, never a partial one. -/
theorem from_input_failure_iff (inp : List Char) :
    (from_input inp = none ↔
      (tokenize inp).length ≠ 54 ∨ (∃ t ∈ tokenize inp, read_card t = none) ∨
      (∃ vals, parse_tokens (tokenize inp) = some vals ∧ vals.dedup.length ≠ 54)) ∧
    (∀ d, from_input inp = some d → parse_tokens (tokenize inp) = some d ∧
      (tokenize inp).length = 54 ∧ d.dedup.length = 54) := by
  by_cases hL : (tokenize inp).length ≠ 54
  · constructor
    · simp only [from_input, if_pos hL]
      exact ⟨fun _ => Or.inl hL, fun _ => True.intro⟩
    · intro d hd
      simp only [from_input, if_pos hL] at hd
      exact absurd hd (by simp)
  · have hL' : (tokenize inp).length = 54 := by omega
    cases hp : parse_tokens (tokenize inp) with
    | none =>
      constructor
      · simp only [from_input, if_neg hL, hp]
        constructor
        · intro _
          exact Or.inr (Or.inl ((parse_tokens_none_iff _).mp hp))
        · intro _; trivial
      · intro d hd
        simp only [from_input, if_neg hL, hp] at hd
        exact absurd hd (by simp)
    | some vals =>
      by_cases hdup : vals.dedup.length ≠ 54
      · constructor
        · simp only [from_input, if_neg hL, hp, if_pos hdup]
          exact ⟨fun _ => Or.inr (Or.inr ⟨vals, rfl, hdup⟩), fun _ => trivial⟩
        · intro d hd
          simp only [from_input, if_neg hL, hp, if_pos hdup] at hd
          exact absurd hd (by simp)
      · constructor
        · simp only [from_input, if_neg hL, hp, if_neg hdup]
          constructor
          · intro h; exact absurd h (by simp)
          · rintro (h | ⟨t, ht, h⟩ | ⟨vals0, hv0, h0⟩)
            · exact absurd hL' h
            · have : parse_tokens (tokenize inp) = none :=
                (parse_tokens_none_iff _).mpr ⟨t, ht, h⟩
              rw [hp] at this
              exact absurd this (by simp)
            · have hvv : vals = vals0 := Option.some.inj hv0
              rw [← hvv] at h0
              exact absurd h0 hdup
        · intro d hd
          rw [← hp]
          exact from_input_some_parts inp d hd

/-- Witness for C6: the empty input tokenizes to zero tokens, so deck
construction fails. -/
theorem from_input_failure_iff_witness : from_input [] = none :=
  (from_input_failure_iff []).1.mpr (Or.inl (by decide))

/-- C9 (confirmed).  Determinism: for every seed token text, every
passphrase, every fuel and every length, two decks built from the
identical seed tokens and the identical passphrase produce identical
keystream prefixes — the computation is a pure function of seed and
passphrase with no other input. -/
theorem keystream_deterministic (inp pw : List Char) (fuel L : Nat)
    (d₁ d₂ : List Nat) (h₁ : deck_from_seed inp pw = some d₁)
    (h₂ : deck_from_seed inp pw = some d₂) :
    key_stream fuel L d₁ = key_stream fuel L d₂ := by
  have hd : d₁ = d₂ := Option.some.inj (h₁.symm.trans h₂)
  rw [hd]

/-- Witness for C9: the default deck text and the passphrase X. -/
theorem keystream_deterministic_witness :
    key_stream 5 2 (from_password ['X']) = key_stream 5 2 (from_password ['X']) :=
  keystream_deterministic default_line ['X'] 5 2 (from_password ['X'])
    (from_password ['X']) (by decide) (by decide)

/-- C10 (corrected).  What each construction path really validates:
the raw constructor checks only cardinality (any 54-element code list
is accepted, duplicates and out-of-range codes included); the
token-parsing path additionally guarantees parseability, distinctness
and range 1..54 of every code; the standard constructor yields the
permutation 1..54. -/
theorem deck_construction_validation :
    (∀ cards : List Nat, (deck_init cards).isSome ↔ cards.length = 54) ∧
    (∀ (inp : List Char) (d : List Nat), from_input inp = some d →
      d.length = 54 ∧ d.Nodup ∧ ∀ x ∈ d, 1 ≤ x ∧ x ≤ 54) ∧
    deck_create.length = 54 ∧ deck_create.Nodup := by
  refine ⟨?_, ?_, by decide, by decide⟩
  · intro cards
    unfold deck_init
    by_cases h : cards.length = 54 <;> simp [h]
  · intro inp d hd
    obtain ⟨hp, hL, hdup⟩ := from_input_some_parts inp d hd
    have hlen : d.length = 54 := by rw [parse_tokens_length _ _ hp, hL]
    have hnd : d.Nodup := by
      have hsub : d.dedup.Sublist d := List.dedup_sublist d
      have heq : d.dedup = d := hsub.eq_of_length (by omega)
      rw [← heq]
      exact List.nodup_dedup d
    exact ⟨hlen, hnd, parse_tokens_range _ _ hp⟩

/-- Witness for C10 (amended): the standard deck passes the raw
constructor's cardinality check. -/
theorem deck_construction_validation_witness : (deck_init deck_create).isSome :=
  (deck_construction_validation.1 deck_create).mpr (by decide)

/-- Counterexample to C10 as stated: a 54-element list that is all 1s
— duplicates everywhere, nothing in most of 1..54 — is accepted by the
Deck constructor, which validates only the length. -/
theorem deck_init_duplicates_counterexample :
    deck_init (List.replicate 54 1) = some (List.replicate 54 1) ∧
    ¬(List.replicate 54 1 : List Nat).Nodup := by
  refine ⟨by decide, by decide⟩

end Solcipher
